import Mathlib

/-!
Verification of the Image2Code repository.

The repository contains two variants of a code-block extractor
(the server API route in the Next.js `pages/api` handler, and the
client-side app's `generateCodeFromImage`), a concurrent generation
fan-out (`generateCode` in both `src/pages/index.tsx` and the
client-side app), per-result editing (`handleCodeChange`), and server
request validation (`handler`).

Strings are modelled as `List Char`, JavaScript regular-expression
matching for the two extractor patterns is modelled by explicit scans
whose semantics match `regex.exec` on the concrete patterns used
(first match in the text, greedy optional language tag, greedy
whitespace run, lazy body capture up to the first closing fence).
-/

namespace Image2Code

/-- The backtick character, code point 0x60. -/
def bq : Char := '\x60'

/-- Characters of the JavaScript whitespace class: the set matched by
the regex class and removed by `String.prototype.trim` (ECMAScript
WhiteSpace plus LineTerminator). -/
def jsSpace (c : Char) : Bool :=
  c.toNat ∈ [0x9, 0xA, 0xB, 0xC, 0xD, 0x20, 0xA0, 0x1680,
    0x2000, 0x2001, 0x2002, 0x2003, 0x2004, 0x2005, 0x2006, 0x2007,
    0x2008, 0x2009, 0x200A, 0x2028, 0x2029, 0x202F, 0x205F, 0x3000, 0xFEFF]

/-- A code fence: three backticks. -/
def fence : List Char := [bq, bq, bq]

/-- JavaScript `String.prototype.trim`: strip leading and trailing
whitespace and line terminators. -/
def trim (s : List Char) : List Char :=
  ((s.dropWhile jsSpace).reverse.dropWhile jsSpace).reverse

/-- Split a text at the first occurrence of a fence `\x60\x60\x60`:
returns the text before the fence and the text after it, or `none`
when no fence occurs.  This is the scan a JavaScript regex performs
for the literal part of the extractor patterns. -/
def splitFence : List Char → Option (List Char × List Char)
  | [] => none
  | c :: rest =>
    if fence <+: c :: rest then some ([], rest.drop 2)
    else (splitFence rest).map fun p => (c :: p.1, p.2)

/-- Strip the first matching language tag from the front of a text,
trying the alternatives in order; strips nothing if no alternative
matches.  This is the semantics of the greedy optional group
in the extractor patterns applied at the position
just after the opening fence. -/
def stripTags (tags : List (List Char)) (s : List Char) : List Char :=
  match tags with
  | [] => s
  | t :: ts => if t <+: s then s.drop t.length else stripTags ts s

/-- The common extractor shape of both `generateCodeFromImage` variants:
first match of a pattern of the shape fence, optional language tag,
greedy whitespace, lazy body, fence; the captured body is trimmed.
Returns `none` when the pattern has no match in the text. -/
def extractFirstBlock (tags : List (List Char)) (s : List Char) : Option (List Char) :=
  match splitFence s with
  | none => none
  | some (_, after) =>
    match splitFence ((stripTags tags after).dropWhile jsSpace) with
    | none => none
    | some (content, _) => some (trim content)

/-- Language-tag alternatives of the server API route's pattern. -/
def serverTags : List (List Char) := ["html".toList]

/-- Language-tag alternatives of the client-side app's pattern. -/
def clientTags : List (List Char) := ["javascript".toList, "js".toList]

/-- The server API route's extractor (part_001 lines 30-32):
on no match the extracted code is the empty string. -/
def serverExtract (response : List Char) : List Char :=
  (extractFirstBlock serverTags response).getD []

/-- The client-side app's extractor (part_001 lines 139-141):
on no match the extracted code is the full response text. -/
def clientExtract (response : List Char) : List Char :=
  (extractFirstBlock clientTags response).getD response

/-- A text contains a fenced code block: an opening fence with a
closing fence somewhere after it. -/
def hasBlock (s : List Char) : Bool :=
  match splitFence s with
  | none => false
  | some (_, after) => (splitFence after).isSome

/-- Extractor written from the specification's words: the trimmed inner
content of the first fenced block, where the recognized language tag is
excluded from the content.  The block is delimited by the first fence
and the next fence after it; the tag is stripped from the inner text
rather than from the whole remainder of the response. -/
def specExtract (tags : List (List Char)) (s : List Char) : Option (List Char) :=
  match splitFence s with
  | none => none
  | some (_, after) =>
    match splitFence after with
    | none => none
    | some (inner, _) => some (trim (stripTags tags inner))

/-- Final prompt construction of the server variant (part_001 lines
20-22): append the user input after a blank line when its trim is
non-empty, else use the prompt alone. -/
def finalPromptServer (prompt userInput : List Char) : List Char :=
  if trim userInput = [] then prompt
  else prompt ++ "\n\nUser input: ".toList ++ userInput

/-- Final prompt construction of the client-side variant (part_001
lines 129-131); textually identical to the server variant's. -/
def finalPromptClient (prompt userInput : List Char) : List Char :=
  if trim userInput = [] then prompt
  else prompt ++ "\n\nUser input: ".toList ++ userInput

/-- One model response of a generation request (shape returned by both
`generateCodeFromImage` variants). -/
structure GenResult where
  fullResponse : List Char
  code : List Char
deriving DecidableEq

/-- One entry of the `outputs` state: id, editable code, reasoning text. -/
structure Output where
  id : Nat
  code : List Char
  fullResponse : List Char
deriving DecidableEq

/-- The client component state touched by `generateCode` and
`handleCodeChange` (both app variants share this shape). -/
structure AppState where
  imageBase64 : List Char
  prompt : List Char
  userInput : List Char
  outputs : List Output
  loading : Bool
  hasStartedGenerating : Bool
  showErrorModal : Bool
deriving DecidableEq

/-- Model of Promise.all: resolves with the results in submission order when
every request resolves, rejects when any request rejects. -/
def promiseAll : List (Except Unit GenResult) → Except Unit (List GenResult)
  | [] => Except.ok []
  | r :: rs =>
    match r with
    | Except.error e => Except.error e
    | Except.ok v =>
      match promiseAll rs with
      | Except.error e => Except.error e
      | Except.ok vs => Except.ok (v :: vs)

/-- Model of the indexed map building the outputs, with the index
starting at `k`: each result r at index i becomes the output with id
i + 1, code r.code and fullResponse r.fullResponse. -/
def mkOutputs : Nat → List GenResult → List Output
  | _, [] => []
  | k, r :: rs => ⟨k + 1, r.code, r.fullResponse⟩ :: mkOutputs (k + 1) rs

/-- State updates `generateCode` performs at submission, before any
request resolves: loading on, results pane on, outputs cleared. -/
def submitPhase (st : AppState) : AppState :=
  { st with loading := true, hasStartedGenerating := true, outputs := [] }

/-- State updates `generateCode` performs when the joined batch
resolves: on success install the indexed outputs, on failure show the
error modal; `finally` clears the loading flag in both cases. -/
def resolvePhase (st : AppState) (responses : List (Except Unit GenResult)) : AppState :=
  match promiseAll responses with
  | Except.ok results => { st with outputs := mkOutputs 0 results, loading := false }
  | Except.error _ => { st with showErrorModal := true, loading := false }

/-- The whole `generateCode` handler: early return when no image is
set, otherwise the submission updates followed by the resolution
updates, with `responses` the outcomes of the batch's requests. -/
def generateCode (st : AppState) (responses : List (Except Unit GenResult)) : AppState :=
  if st.imageBase64 = [] then st
  else resolvePhase (submitPhase st) responses

/-- Number of direct calls to the generation model issued by the
client-side app's `generateCode` (part_001 lines 248-259) for a batch
of `n` concurrent requests: the only guard is a missing image; the
prompt is not validated. -/
def modelCallsDirect (st : AppState) (n : Nat) : Nat :=
  if st.imageBase64 = [] then 0 else n

/-- Model of handleCodeChange (index.tsx lines 159-165 and part_001 lines
312-318): replace the code field of every output whose id matches. -/
def handleCodeChange (outputs : List Output) (id : Nat) (newCode : List Char) : List Output :=
  outputs.map fun o => if o.id = id then { o with code := newCode } else o

/-- The body of a request to the API route. -/
structure ApiRequest where
  method : List Char
  imageBase64 : Option (List Char)
  prompt : Option (List Char)
  userInput : Option (List Char)

/-- Observable outcome of one API route invocation: HTTP status,
whether the generation model was called, and the returned result. -/
structure ApiOutcome where
  status : Nat
  modelCalled : Bool
  body : Option GenResult

/-- JavaScript falsiness of a request-body string field: absent or
the empty string. -/
def falsy : Option (List Char) → Bool
  | none => true
  | some s => s.isEmpty

/-- The API route `handler` (part_001 lines 40-63): reject non-POST
with 405, reject a falsy image or prompt with 400 before calling the
model, otherwise call the model and answer 200 with the extraction
result or 500 on model failure.  `model` is the outcome of the
model call were it made. -/
def handler (req : ApiRequest) (model : Except Unit (List Char)) : ApiOutcome :=
  if req.method ≠ "POST".toList then ⟨405, false, none⟩
  else if falsy req.imageBase64 || falsy req.prompt then ⟨400, false, none⟩
  else
    match model with
    | Except.ok text => ⟨200, true, some ⟨text, serverExtract text⟩⟩
    | Except.error _ => ⟨500, true, none⟩

/-- The request body `generateCode` in index.tsx posts to the API
route for each request of a batch. -/
def indexApiRequest (st : AppState) : ApiRequest :=
  ⟨"POST".toList, some st.imageBase64, some st.prompt, some st.userInput⟩

theorem dropWhile_idem (p : Char → Bool) (l : List Char) :
    (l.dropWhile p).dropWhile p = l.dropWhile p := by
  induction l with
  | nil => rfl
  | cons c l ih =>
    by_cases h : p c <;> simp [List.dropWhile_cons, h, ih]

theorem trim_dropWhile (l : List Char) :
    trim (l.dropWhile jsSpace) = trim l := by
  simp [trim, dropWhile_idem]

theorem dropWhile_append_cons {p : Char → Bool} {c : Char} (h : p c = false)
    (x z : List Char) : (x ++ c :: z).dropWhile p = x.dropWhile p ++ c :: z := by
  induction x with
  | nil => simp [List.dropWhile_cons, h]
  | cons a x ih =>
    by_cases ha : p a <;> simp [List.dropWhile_cons, ha, ih]

theorem dropWhile_isSuffix (p : Char → Bool) (l : List Char) :
    ∃ q, l = q ++ l.dropWhile p := by
  induction l with
  | nil => exact ⟨[], rfl⟩
  | cons c l ih =>
    by_cases h : p c
    · obtain ⟨q, hq⟩ := ih
      exact ⟨c :: q, by simp [List.dropWhile_cons, h, ← hq]⟩
    · exact ⟨[], by simp [List.dropWhile_cons, h]⟩

theorem mem_of_mem_dropWhile {p : Char → Bool} {c : Char} {l : List Char}
    (h : c ∈ l.dropWhile p) : c ∈ l := by
  obtain ⟨q, hq⟩ := dropWhile_isSuffix p l
  rw [hq]
  exact List.mem_append_right q h

theorem splitFence_sound : ∀ {s a b : List Char},
    splitFence s = some (a, b) → s = a ++ fence ++ b := by
  intro s
  induction s with
  | nil => intro a b h; simp [splitFence] at h
  | cons c rest ih =>
    intro a b h
    rw [splitFence] at h
    by_cases hf : fence <+: c :: rest
    · rw [if_pos hf] at h
      obtain ⟨t, ht⟩ := hf
      simp only [Option.some.injEq, Prod.mk.injEq] at h
      obtain ⟨h1, h2⟩ := h
      have htt : t = rest.drop 2 := by
        have := congrArg (List.drop 3) ht
        simpa [fence] using this
      subst h1
      rw [← h2, ← htt, List.nil_append]
      exact ht.symm
    · rw [if_neg hf] at h
      cases ho : splitFence rest with
      | none => rw [ho] at h; simp at h
      | some q =>
        obtain ⟨q1, q2⟩ := q
        rw [ho] at h
        simp only [Option.map_some', Option.some.injEq] at h
        cases a with
        | nil => simp [Prod.mk.injEq] at h
        | cons a0 a' =>
          simp only [Prod.mk.injEq, List.cons.injEq] at h
          obtain ⟨⟨hc, hq1⟩, h2⟩ := h
          subst hc h2
          rw [← hq1] at *
          have := ih ho
          simp [this]

theorem splitFence_peel : ∀ (p s a b : List Char),
    splitFence (p ++ s) = some (p ++ a, b) → splitFence s = some (a, b) := by
  intro p
  induction p with
  | nil => intro s a b h; simpa using h
  | cons c p ih =>
    intro s a b h
    rw [List.cons_append, splitFence] at h
    by_cases hf : fence <+: c :: (p ++ s)
    · rw [if_pos hf] at h
      injection h with h'
      injection h' with h1 _
      simp at h1
    · rw [if_neg hf] at h
      cases ho : splitFence (p ++ s) with
      | none => rw [ho] at h; simp at h
      | some q =>
        rw [ho] at h
        obtain ⟨q1, q2⟩ := q
        simp only [Option.map_some'] at h
        injection h with h'
        injection h' with h1 h2
        simp only [List.cons_append, List.cons.injEq] at h1
        obtain ⟨_, hq1⟩ := h1
        subst hq1 h2
        exact ih s a q2 ho

theorem splitFence_none_append : ∀ (p s : List Char),
    splitFence (p ++ s) = none → splitFence s = none := by
  intro p
  induction p with
  | nil => intro s h; simpa using h
  | cons c p ih =>
    intro s h
    rw [List.cons_append, splitFence] at h
    by_cases hf : fence <+: c :: (p ++ s)
    · rw [if_pos hf] at h; simp at h
    · rw [if_neg hf] at h
      cases ho : splitFence (p ++ s) with
      | none => exact ih s ho
      | some q => rw [ho] at h; simp at h

theorem splitFence_append_fence {a : List Char} (h : bq ∉ a) (z : List Char) :
    splitFence (a ++ fence ++ z) = some (a, z) := by
  induction a with
  | nil =>
    have he : ([] : List Char) ++ fence ++ z = bq :: (bq :: (bq :: z)) := by
      simp [fence]
    rw [he, splitFence]
    rw [if_pos ⟨z, by simp [fence]⟩]
    simp
  | cons c a ih =>
    have hc : c ≠ bq := fun hc => h (hc ▸ List.mem_cons_self c a)
    have ha : bq ∉ a := fun hm => h (List.mem_cons_of_mem c hm)
    have he : (c :: a) ++ fence ++ z = c :: (a ++ fence ++ z) := by simp
    rw [he, splitFence]
    rw [if_neg]
    · rw [ih ha]
      rfl
    · intro hpre
      rcases hpre with ⟨t, ht⟩
      rw [fence] at ht
      simp only [List.cons_append, List.cons.injEq] at ht
      exact hc ht.1.symm

theorem bq_prefix_iff {t : List Char} (h : bq ∉ t) (x z : List Char) :
    t <+: x ++ bq :: z ↔ t <+: x := by
  constructor
  · intro hp
    rcases le_or_lt t.length x.length with hle | hlt
    · exact List.prefix_of_prefix_length_le hp (List.prefix_append x (bq :: z)) hle
    · exfalso
      have hxp : x <+: t :=
        List.prefix_of_prefix_length_le (List.prefix_append x (bq :: z)) hp (Nat.le_of_lt hlt)
      obtain ⟨w, hw⟩ := hxp
      obtain ⟨u, hu⟩ := hp
      rw [← hw, List.append_assoc] at hu
      have hwu : w ++ u = bq :: z := List.append_cancel_left hu
      cases w with
      | nil => rw [← hw] at hlt; simp at hlt
      | cons w0 w' =>
        have hw0 : w0 = bq := by
          have := hwu
          simp only [List.cons_append, List.cons.injEq] at this
          exact this.1
        apply h
        rw [← hw]
        exact List.mem_append_right x (hw0 ▸ List.mem_cons_self w0 w')
  · intro hp
    exact hp.trans (List.prefix_append x (bq :: z))

theorem stripTags_append_bq {tags : List (List Char)}
    (h : ∀ t ∈ tags, bq ∉ t) (x z : List Char) :
    stripTags tags (x ++ bq :: z) = stripTags tags x ++ bq :: z := by
  induction tags with
  | nil => rfl
  | cons t ts ih =>
    have ht : bq ∉ t := h t (List.mem_cons_self t ts)
    have hts : ∀ u ∈ ts, bq ∉ u := fun u hu => h u (List.mem_cons_of_mem t hu)
    rw [stripTags, stripTags]
    by_cases hp : t <+: x
    · rw [if_pos ((bq_prefix_iff ht x z).mpr hp), if_pos hp]
      obtain ⟨u, hu⟩ := hp
      rw [← hu, List.append_assoc, List.drop_left, List.drop_left]
    · rw [if_neg (fun hc => hp ((bq_prefix_iff ht x z).mp hc)), if_neg hp]
      exact ih hts

theorem stripTags_isSuffix (tags : List (List Char)) (s : List Char) :
    ∃ p, s = p ++ stripTags tags s := by
  induction tags with
  | nil => exact ⟨[], rfl⟩
  | cons t ts ih =>
    rw [stripTags]
    by_cases hp : t <+: s
    · rw [if_pos hp]
      obtain ⟨u, hu⟩ := hp
      exact ⟨t, by rw [← hu, List.drop_left]⟩
    · rw [if_neg hp]
      exact ih

theorem serverTags_bq_free : ∀ t ∈ serverTags, bq ∉ t := by decide

theorem clientTags_bq_free : ∀ t ∈ clientTags, bq ∉ t := by decide

theorem jsSpace_bq : jsSpace bq = false := by decide

/-- Under the presence of a fenced block, both the stripping-then-
scanning computation of the code and the scan-then-strip computation
of the specification produce the same extraction. -/
theorem extract_eq_spec {tags : List (List Char)} (hbq : ∀ t ∈ tags, bq ∉ t)
    {s : List Char} (h : hasBlock s = true) :
    extractFirstBlock tags s = specExtract tags s := by
  cases h1 : splitFence s with
  | none =>
    rw [hasBlock, h1] at h
    simp at h
  | some pa =>
    obtain ⟨pre, after⟩ := pa
    rw [hasBlock, h1] at h
    have hsome : (splitFence after).isSome = true := h
    cases h2 : splitFence after with
    | none => rw [h2] at hsome; simp at hsome
    | some ib =>
      obtain ⟨inner, rem⟩ := ib
      have hsound : after = inner ++ fence ++ rem := splitFence_sound h2
      obtain ⟨q1, hq1⟩ := stripTags_isSuffix tags inner
      obtain ⟨q2, hq2⟩ := dropWhile_isSuffix jsSpace (stripTags tags inner)
      obtain ⟨core, hcdef⟩ : ∃ c, (stripTags tags inner).dropWhile jsSpace = c :=
        ⟨_, rfl⟩
      rw [hcdef] at hq2
      have hK : stripTags tags after = stripTags tags inner ++ fence ++ rem := by
        rw [hsound]
        have he : inner ++ fence ++ rem = inner ++ bq :: (bq :: bq :: rem) := by
          simp [fence]
        have he2 : stripTags tags inner ++ fence ++ rem
            = stripTags tags inner ++ bq :: (bq :: bq :: rem) := by
          simp [fence]
        rw [he, he2, stripTags_append_bq hbq]
      have hcore : (stripTags tags after).dropWhile jsSpace = core ++ fence ++ rem := by
        rw [hK]
        have he : stripTags tags inner ++ fence ++ rem
            = stripTags tags inner ++ bq :: (bq :: bq :: rem) := by
          simp [fence]
        have he2 : core ++ fence ++ rem = core ++ bq :: (bq :: bq :: rem) := by
          simp [fence]
        rw [he, he2, dropWhile_append_cons jsSpace_bq, hcdef]
      have hinner : inner = (q1 ++ q2) ++ core := by
        rw [List.append_assoc, ← hq2, ← hq1]
      have hafter2 : after = (q1 ++ q2) ++ (core ++ fence ++ rem) := by
        rw [hsound, hinner]
        simp [List.append_assoc]
      have h2' := h2
      rw [hafter2, hinner] at h2'
      have hcs := splitFence_peel (q1 ++ q2) (core ++ fence ++ rem) core rem h2'
      simp only [extractFirstBlock, specExtract, h1, h2, hcore, hcs]
      rw [← hcdef, trim_dropWhile]

/-- When the text has no fenced block, the common extractor finds no
match. -/
theorem extract_none_of_noBlock {tags : List (List Char)} {s : List Char}
    (h : hasBlock s = false) : extractFirstBlock tags s = none := by
  cases h1 : splitFence s with
  | none => simp only [extractFirstBlock, h1]
  | some pa =>
    obtain ⟨pre, after⟩ := pa
    rw [hasBlock, h1] at h
    have hnone : (splitFence after).isSome = false := h
    cases h2 : splitFence after with
    | some ib => rw [h2] at hnone; simp at hnone
    | none =>
      simp only [extractFirstBlock, h1]
      obtain ⟨q1, hq1⟩ := stripTags_isSuffix tags after
      obtain ⟨q2, hq2⟩ := dropWhile_isSuffix jsSpace (stripTags tags after)
      have hafter : after = (q1 ++ q2) ++ (stripTags tags after).dropWhile jsSpace := by
        rw [List.append_assoc, ← hq2, ← hq1]
      have hn : splitFence ((stripTags tags after).dropWhile jsSpace) = none := by
        apply splitFence_none_append (q1 ++ q2)
        rw [← hafter]
        exact h2
      simp only [hn]

theorem dropWhile_all {p : Char → Bool} : ∀ {l : List Char},
    (∀ a ∈ l.dropWhile p, p a) → ∀ a ∈ l, p a := by
  intro l
  induction l with
  | nil => intro _ a ha; simp at ha
  | cons c l ih =>
    intro h a ha
    by_cases hc : p c
    · rw [List.dropWhile_cons, if_pos hc] at h
      rcases List.mem_cons.mp ha with rfl | hm
      · exact hc
      · exact ih h a hm
    · rw [List.dropWhile_cons, if_neg hc] at h
      exact h a ha

theorem trim_eq_nil_iff {u : List Char} : trim u = [] ↔ u.all jsSpace = true := by
  rw [trim]
  constructor
  · intro h
    rw [List.reverse_eq_nil_iff, List.dropWhile_eq_nil_iff] at h
    rw [List.all_eq_true]
    refine dropWhile_all (p := jsSpace) ?_
    intro b hb
    exact h b (List.mem_reverse.mpr hb)
  · intro h
    rw [List.all_eq_true] at h
    have h1 : u.dropWhile jsSpace = [] :=
      List.dropWhile_eq_nil_iff.mpr fun a ha => h a ha
    rw [h1]
    rfl

theorem promiseAll_ok : ∀ results : List GenResult,
    promiseAll (results.map Except.ok) = Except.ok results := by
  intro results
  induction results with
  | nil => rfl
  | cons r rs ih => simp [promiseAll, ih]

theorem promiseAll_error : ∀ {rs : List (Except Unit GenResult)},
    Except.error () ∈ rs → promiseAll rs = Except.error () := by
  intro rs
  induction rs with
  | nil => intro h; simp at h
  | cons r rs ih =>
    intro h
    rcases List.mem_cons.mp h with rfl | hm
    · rfl
    · cases r with
      | error e => cases e; rfl
      | ok v => simp [promiseAll, ih hm]

theorem mkOutputs_length : ∀ (k : Nat) (rs : List GenResult),
    (mkOutputs k rs).length = rs.length := by
  intro k rs
  induction rs generalizing k with
  | nil => rfl
  | cons r rs ih => simp [mkOutputs, ih]

theorem mkOutputs_get : ∀ (k i : Nat) (rs : List GenResult),
    (mkOutputs k rs)[i]?
      = (rs[i]?).map fun r => Output.mk (k + i + 1) r.code r.fullResponse := by
  intro k i rs
  induction rs generalizing k i with
  | nil => simp [mkOutputs]
  | cons r rs ih =>
    cases i with
    | zero => simp [mkOutputs]
    | succ i =>
      have harith : k + 1 + i + 1 = k + (i + 1) + 1 := by omega
      simp [mkOutputs, ih (k + 1) i, harith]

theorem mkOutputs_ids : ∀ (k : Nat) (rs : List GenResult),
    (mkOutputs k rs).map (fun o => o.id) = List.range' (k + 1) rs.length := by
  intro k rs
  induction rs generalizing k with
  | nil => rfl
  | cons r rs ih => simp [mkOutputs, ih, List.range'_succ]

theorem hasBlock_of_specExtract {tags : List (List Char)} {s c : List Char}
    (h : specExtract tags s = some c) : hasBlock s = true := by
  cases h1 : splitFence s with
  | none =>
    simp only [specExtract, h1] at h
    exact Option.noConfusion h
  | some pa =>
    obtain ⟨pre, after⟩ := pa
    cases h2 : splitFence after with
    | none =>
      simp only [specExtract, h1, h2] at h
      exact Option.noConfusion h
    | some ib =>
      rw [hasBlock, h1]
      show (splitFence after).isSome = true
      rw [h2]
      rfl

/-- A response with a single html-tagged fenced block on which the two
extractor variants disagree: the server variant strips the html tag,
the client variant does not. -/
def c1Input : List Char := "```html\nx\n```".toList

/-- C1 counterexample: the two extractor variants return different
strings for the same response containing one fenced block, so they
cannot both return the trimmed inner content of that block. -/
theorem c1_variants_disagree :
    serverExtract c1Input = "x".toList ∧
    clientExtract c1Input = "html\nx".toList ∧
    serverExtract c1Input ≠ clientExtract c1Input := by decide

/-- C1 (amended): for every response text containing at least one
fenced code block, each extractor variant returns exactly the trimmed
inner content of the first fenced block, ignoring later blocks, where
each variant excludes only its own recognized language tags from the
content (html for the server route, javascript and js for the
client-side app); any other tag text stays inside the content. -/
theorem c1_first_block_extraction (s code1 code2 : List Char)
    (h1 : specExtract serverTags s = some code1)
    (h2 : specExtract clientTags s = some code2) :
    serverExtract s = code1 ∧ clientExtract s = code2 := by
  have hb := hasBlock_of_specExtract h1
  constructor
  · rw [serverExtract, extract_eq_spec serverTags_bq_free hb, h1]
    rfl
  · rw [clientExtract, extract_eq_spec clientTags_bq_free hb, h2]
    rfl

/-- C1 witness: the amended theorem applied at the concrete
disagreeing input. -/
theorem c1_first_block_extraction_witness :
    serverExtract c1Input = "x".toList ∧ clientExtract c1Input = "html\nx".toList :=
  c1_first_block_extraction c1Input "x".toList "html\nx".toList (by decide) (by decide)

/-- C2: for every response text with no fenced code block, the server
API route's extractor returns the empty string and the client-side
app's extractor returns the full response text unmodified. -/
theorem c2_no_block_fallback (s : List Char) (h : hasBlock s = false) :
    serverExtract s = [] ∧ clientExtract s = s := by
  constructor
  · rw [serverExtract, extract_none_of_noBlock h]
    rfl
  · rw [clientExtract, extract_none_of_noBlock h]
    rfl

/-- C2 witness: fallback behaviour at a concrete fence-free response. -/
theorem c2_no_block_fallback_witness :
    hasBlock "There is no code.".toList = false ∧
    serverExtract "There is no code.".toList = [] ∧
    clientExtract "There is no code.".toList = "There is no code.".toList := by
  refine ⟨by decide, ?_, ?_⟩
  · exact (c2_no_block_fallback "There is no code.".toList (by decide)).1
  · exact (c2_no_block_fallback "There is no code.".toList (by decide)).2

/-- The specification's concrete example response. -/
def c3Input : List Char :=
  "Here is the code:\n```html\n<div>hi</div>\n```\nDone.".toList

/-- C3 counterexample: the client-side variant does not recognize the
html tag and so does not return the bare div element. -/
theorem c3_client_differs : clientExtract c3Input ≠ "<div>hi</div>".toList := by
  decide

/-- C3 (amended): on the specification's example response the server
variant extracts the bare div element, while the client-side variant,
which strips only javascript and js tags, keeps the html tag at the
head of the extracted code. -/
theorem c3_example_extraction :
    serverExtract c3Input = "<div>hi</div>".toList ∧
    clientExtract c3Input = "html\n<div>hi</div>".toList := by
  decide

/-- A demonstration state with an uploaded image and one prior result. -/
def stDemo : AppState :=
  ⟨"img".toList, "a prompt".toList, [],
    [⟨1, "old code".toList, "old response".toList⟩], false, true, false⟩

/-- C4: when any request of a submitted batch fails, the error modal is
shown, the outputs collection (cleared at submission) stays empty, and
loading ends; no partial results are surfaced. -/
theorem c4_batch_failure (st : AppState) (rs : List (Except Unit GenResult))
    (himg : st.imageBase64 ≠ []) (hfail : Except.error () ∈ rs) :
    (generateCode st rs).showErrorModal = true ∧
    (generateCode st rs).outputs = [] ∧
    (generateCode st rs).loading = false := by
  rw [generateCode, if_neg himg, resolvePhase, promiseAll_error hfail]
  exact ⟨rfl, rfl, rfl⟩

/-- C4 witness: a concrete two-request batch with one failure. -/
theorem c4_batch_failure_witness :
    (generateCode stDemo
      [Except.ok ⟨"r".toList, "c".toList⟩, Except.error ()]).showErrorModal = true ∧
    (generateCode stDemo
      [Except.ok ⟨"r".toList, "c".toList⟩, Except.error ()]).outputs = [] ∧
    (generateCode stDemo
      [Except.ok ⟨"r".toList, "c".toList⟩, Except.error ()]).loading = false :=
  c4_batch_failure stDemo _ (by decide) (by simp)

/-- C5: a batch of N all-successful requests yields exactly N outputs
ordered by submission index, with ids 1..N (hence unique), the i-th
output carrying the i-th result's code and response. -/
theorem c5_batch_success (st : AppState) (results : List GenResult)
    (himg : st.imageBase64 ≠ [])
    (hmin : 1 ≤ results.length) (hmax : results.length ≤ 10) :
    (generateCode st (results.map Except.ok)).outputs.length = results.length ∧
    ((generateCode st (results.map Except.ok)).outputs.map fun o => o.id)
      = List.range' 1 results.length ∧
    ((generateCode st (results.map Except.ok)).outputs.map fun o => o.id).Nodup ∧
    ∀ i, i < results.length →
      (generateCode st (results.map Except.ok)).outputs[i]?
        = (results[i]?).map fun r => Output.mk (i + 1) r.code r.fullResponse := by
  have hgen : (generateCode st (results.map Except.ok)).outputs
      = mkOutputs 0 results := by
    rw [generateCode, if_neg himg, resolvePhase, promiseAll_ok]
  rw [hgen]
  refine ⟨mkOutputs_length 0 results, ?_, ?_, ?_⟩
  · simpa using mkOutputs_ids 0 results
  · have hids := mkOutputs_ids 0 results
    rw [hids]
    exact List.nodup_range' 1 results.length
  · intro i hi
    simpa using mkOutputs_get 0 i results

/-- C5 witness: a concrete all-success batch of two requests. -/
theorem c5_batch_success_witness :
    (generateCode stDemo
      ([⟨"r1".toList, "c1".toList⟩, ⟨"r2".toList, "c2".toList⟩].map Except.ok)).outputs.length = 2 ∧
    ((generateCode stDemo
      ([⟨"r1".toList, "c1".toList⟩, ⟨"r2".toList, "c2".toList⟩].map Except.ok)).outputs.map fun o => o.id) = [1, 2] ∧
    (generateCode stDemo
      ([⟨"r1".toList, "c1".toList⟩, ⟨"r2".toList, "c2".toList⟩].map Except.ok)).outputs[0]?
      = some ⟨1, "c1".toList, "r1".toList⟩ := by
  have h := c5_batch_success stDemo
    [⟨"r1".toList, "c1".toList⟩, ⟨"r2".toList, "c2".toList⟩]
    (by decide) (by decide) (by decide)
  refine ⟨h.1, h.2.1, ?_⟩
  have h0 := h.2.2.2 0 (by decide)
  rw [h0]
  decide

/-- C8 counterexample: at submission the outputs collection is cleared
at once, so a state holding prior results does not keep them while the
new batch is in flight. -/
theorem c8_outputs_cleared_in_flight :
    stDemo.outputs ≠ [] ∧
    (submitPhase stDemo).outputs ≠ stDemo.outputs ∧
    (submitPhase stDemo).outputs = [] := by decide

/-- C8 (amended): a new submission discards the previous batch's
results immediately: the in-flight state has empty outputs, and the
outputs installed at resolution are computed from the new batch's
responses alone (the new results on success, empty on failure). -/
theorem c8_submission_discards (st : AppState) (rs : List (Except Unit GenResult))
    (himg : st.imageBase64 ≠ []) :
    (submitPhase st).outputs = [] ∧
    generateCode st rs = resolvePhase (submitPhase st) rs ∧
    (∀ results, promiseAll rs = Except.ok results →
      (generateCode st rs).outputs = mkOutputs 0 results) ∧
    (promiseAll rs = Except.error () → (generateCode st rs).outputs = []) := by
  refine ⟨rfl, ?_, ?_, ?_⟩
  · rw [generateCode, if_neg himg]
  · intro results hok
    rw [generateCode, if_neg himg, resolvePhase, hok]
  · intro herr
    rw [generateCode, if_neg himg, resolvePhase, herr]
    exact rfl

/-- C8 witness: the amended theorem at a concrete state with prior
results and a concrete one-request batch. -/
theorem c8_submission_discards_witness :
    (submitPhase stDemo).outputs = [] ∧
    generateCode stDemo [Except.ok ⟨"r".toList, "c".toList⟩]
      = resolvePhase (submitPhase stDemo) [Except.ok ⟨"r".toList, "c".toList⟩] ∧
    (generateCode stDemo [Except.ok ⟨"r".toList, "c".toList⟩]).outputs
      = mkOutputs 0 [⟨"r".toList, "c".toList⟩] := by
  have h := c8_submission_discards stDemo [Except.ok ⟨"r".toList, "c".toList⟩] (by decide)
  exact ⟨h.1, h.2.1, h.2.2.1 [⟨"r".toList, "c".toList⟩] rfl⟩

theorem not_prefix_of_head_ne {a b : Char} {l1 l2 : List Char} (h : a ≠ b) :
    ¬(a :: l1 <+: b :: l2) := by
  intro hp
  obtain ⟨t, ht⟩ := hp
  rw [List.cons_append] at ht
  injection ht with h1 _
  exact h h1

/-- Extraction of a response that is exactly one fenced block whose
post-fence text strips to a newline followed by the body. -/
theorem extract_block_core {tags : List (List Char)} {y c : List Char}
    (hstrip : stripTags tags (y ++ fence) = '\n' :: (c ++ fence))
    (hc : bq ∉ c) :
    extractFirstBlock tags (fence ++ y ++ fence) = some (trim c) := by
  have h1 : splitFence (fence ++ y ++ fence) = some ([], y ++ fence) := by
    have := splitFence_append_fence (a := ([] : List Char)) (by simp) (y ++ fence)
    simpa using this
  have h2 : ('\n' :: (c ++ fence)).dropWhile jsSpace = c.dropWhile jsSpace ++ fence := by
    rw [List.dropWhile_cons, if_pos (by decide)]
    have he : c ++ fence = c ++ bq :: [bq, bq] := by simp [fence]
    have he2 : c.dropWhile jsSpace ++ fence = c.dropWhile jsSpace ++ bq :: [bq, bq] := by
      simp [fence]
    rw [he, he2, dropWhile_append_cons jsSpace_bq]
  have h3 : splitFence (c.dropWhile jsSpace ++ fence) = some (c.dropWhile jsSpace, []) := by
    have hcc : bq ∉ c.dropWhile jsSpace := fun hm => hc (mem_of_mem_dropWhile hm)
    have := splitFence_append_fence hcc []
    simpa using this
  simp only [extractFirstBlock, h1, hstrip, h2, h3]
  rw [trim_dropWhile]

/-- A response whose only fenced block carries an unrecognized
language tag. -/
def c6Input : List Char := "```python\nprint(1)\n```".toList

/-- C6 counterexample: an unrecognized language tag is not excluded
from the extraction; it stays at the head of the extracted code. -/
theorem c6_tag_leaks :
    serverExtract c6Input = "python\nprint(1)".toList ∧
    "python".toList <+: serverExtract c6Input ∧
    serverExtract c6Input ≠ "print(1)".toList := by decide

/-- C6 (amended): only each variant's recognized language tags are
excluded from the extracted content and play no role in it: for the
server route the html tag, for the client-side app the javascript and
js tags; a tagless block behaves identically.  Stated for every
backtick-free block body. -/
theorem c6_recognized_tag_stripping (c : List Char) (h : bq ∉ c) :
    serverExtract (fence ++ ("html\n".toList ++ c) ++ fence) = trim c ∧
    serverExtract (fence ++ ("\n".toList ++ c) ++ fence) = trim c ∧
    clientExtract (fence ++ ("javascript\n".toList ++ c) ++ fence) = trim c ∧
    clientExtract (fence ++ ("js\n".toList ++ c) ++ fence) = trim c ∧
    clientExtract (fence ++ ("\n".toList ++ c) ++ fence) = trim c := by
  have hs1 : stripTags serverTags (("html\n".toList ++ c) ++ fence)
      = '\n' :: (c ++ fence) := by
    show stripTags serverTags ("html".toList ++ ('\n' :: (c ++ fence)))
      = '\n' :: (c ++ fence)
    simp only [serverTags, stripTags]
    rw [if_pos (List.prefix_append _ _)]
    exact List.drop_left _ _
  have hs2 : stripTags serverTags (("\n".toList ++ c) ++ fence)
      = '\n' :: (c ++ fence) := by
    show stripTags serverTags ('\n' :: (c ++ fence)) = '\n' :: (c ++ fence)
    have hn : ¬("html".toList <+: '\n' :: (c ++ fence)) :=
      not_prefix_of_head_ne (by decide)
    simp only [serverTags, stripTags]
    rw [if_neg hn]
  have hs3 : stripTags clientTags (("javascript\n".toList ++ c) ++ fence)
      = '\n' :: (c ++ fence) := by
    show stripTags clientTags ("javascript".toList ++ ('\n' :: (c ++ fence)))
      = '\n' :: (c ++ fence)
    simp only [clientTags, stripTags]
    rw [if_pos (List.prefix_append _ _)]
    exact List.drop_left _ _
  have hs4 : stripTags clientTags (("js\n".toList ++ c) ++ fence)
      = '\n' :: (c ++ fence) := by
    show stripTags clientTags ("js".toList ++ ('\n' :: (c ++ fence)))
      = '\n' :: (c ++ fence)
    simp only [clientTags, stripTags]
    rw [if_neg]
    · rw [if_pos (List.prefix_append _ _)]
      exact List.drop_left _ _
    · intro hp
      obtain ⟨t, ht⟩ := hp
      injection ht with _ ht2
      injection ht2 with h2 _
      exact absurd h2 (by decide)
  have hs5 : stripTags clientTags (("\n".toList ++ c) ++ fence)
      = '\n' :: (c ++ fence) := by
    show stripTags clientTags ('\n' :: (c ++ fence)) = '\n' :: (c ++ fence)
    have hn1 : ¬("javascript".toList <+: '\n' :: (c ++ fence)) :=
      not_prefix_of_head_ne (by decide)
    have hn2 : ¬("js".toList <+: '\n' :: (c ++ fence)) :=
      not_prefix_of_head_ne (by decide)
    simp only [clientTags, stripTags]
    rw [if_neg hn1, if_neg hn2]
  refine ⟨?_, ?_, ?_, ?_, ?_⟩
  · rw [serverExtract, extract_block_core hs1 h]
    rfl
  · rw [serverExtract, extract_block_core hs2 h]
    rfl
  · rw [clientExtract, extract_block_core hs3 h]
    rfl
  · rw [clientExtract, extract_block_core hs4 h]
    rfl
  · rw [clientExtract, extract_block_core hs5 h]
    rfl

/-- C6 witness: the amended theorem at a concrete backtick-free body. -/
theorem c6_recognized_tag_stripping_witness :
    serverExtract (fence ++ ("html\n".toList ++ " <p>x</p> ".toList) ++ fence)
      = trim " <p>x</p> ".toList ∧
    clientExtract (fence ++ ("js\n".toList ++ " <p>x</p> ".toList) ++ fence)
      = trim " <p>x</p> ".toList := by
  have h := c6_recognized_tag_stripping " <p>x</p> ".toList (by decide)
  exact ⟨h.1, h.2.2.2.1⟩

/-- A state with an uploaded image but an empty prompt. -/
def stNoPrompt : AppState := ⟨"img".toList, [], [], [], false, false, false⟩

/-- A state with no uploaded image. -/
def stNoImage : AppState := ⟨[], "a prompt".toList, [], [], false, false, false⟩

/-- C7 counterexample: the client-side direct variant submits with a
missing prompt and still issues its generation model calls; nothing
rejects the submission before the network calls. -/
theorem c7_direct_skips_prompt_validation :
    stNoPrompt.prompt = [] ∧
    modelCallsDirect stNoPrompt 5 = 5 ∧
    modelCallsDirect stNoPrompt 5 ≠ 0 := by decide

/-- C7 (amended): a submission with a missing image is rejected
client-side before any call and leaves the state untouched in both
variants; a missing prompt is rejected before the model call only in
the server API route, which answers 400 with the model never called;
the client-side direct variant performs no prompt validation and
issues its model calls whenever an image is present. -/
theorem c7_validation :
    (∀ st rs, st.imageBase64 = [] → generateCode st rs = st) ∧
    (∀ st n, st.imageBase64 = [] → modelCallsDirect st n = 0) ∧
    (∀ req model, req.method = "POST".toList →
      (falsy req.imageBase64 || falsy req.prompt) = true →
      (handler req model).status = 400 ∧ (handler req model).modelCalled = false) ∧
    (∀ st model, st.prompt = [] → st.imageBase64 ≠ [] →
      (handler (indexApiRequest st) model).status = 400 ∧
      (handler (indexApiRequest st) model).modelCalled = false) ∧
    (∀ st n, st.imageBase64 ≠ [] → modelCallsDirect st n = n) := by
  have hmain : ∀ req model, req.method = "POST".toList →
      (falsy req.imageBase64 || falsy req.prompt) = true →
      (handler req model).status = 400 ∧ (handler req model).modelCalled = false := by
    intro req model hm hf
    unfold handler
    rw [if_neg (by rw [hm]; exact fun hc => hc rfl), if_pos hf]
    exact ⟨rfl, rfl⟩
  refine ⟨?_, ?_, hmain, ?_, ?_⟩
  · intro st rs h
    rw [generateCode, if_pos h]
  · intro st n h
    rw [modelCallsDirect, if_pos h]
  · intro st model hp himg
    apply hmain
    · rfl
    · rw [indexApiRequest]
      simp [falsy, hp]
  · intro st n h
    rw [modelCallsDirect, if_neg h]

/-- C7 witness: the amended theorem at concrete states and a concrete
promptless request. -/
theorem c7_validation_witness :
    generateCode stNoImage [] = stNoImage ∧
    modelCallsDirect stNoImage 3 = 0 ∧
    (handler (indexApiRequest stNoPrompt) (Except.ok "text".toList)).status = 400 ∧
    (handler (indexApiRequest stNoPrompt) (Except.ok "text".toList)).modelCalled = false ∧
    modelCallsDirect stNoPrompt 4 = 4 :=
  ⟨c7_validation.1 stNoImage [] rfl,
   c7_validation.2.1 stNoImage 3 rfl,
   (c7_validation.2.2.2.1 stNoPrompt (Except.ok "text".toList) rfl (by decide)).1,
   (c7_validation.2.2.2.1 stNoPrompt (Except.ok "text".toList) rfl (by decide)).2,
   c7_validation.2.2.2.2 stNoPrompt 4 (by decide)⟩

/-- C9: editing one result's code replaces exactly that result's code
field with the new text (never recomputing it from the response text)
and leaves its id and response text, and every field of every
other result, unchanged. -/
theorem c9_code_change_frame (outputs : List Output) (id : Nat) (newCode : List Char)
    (i : Nat) (hi : i < outputs.length) :
    (handleCodeChange outputs id newCode).length = outputs.length ∧
    ∃ o o', outputs[i]? = some o ∧
      (handleCodeChange outputs id newCode)[i]? = some o' ∧
      o'.id = o.id ∧ o'.fullResponse = o.fullResponse ∧
      (o.id = id → o'.code = newCode) ∧
      (o.id ≠ id → o' = o) := by
  constructor
  · exact List.length_map outputs _
  · have hget : outputs[i]? = some outputs[i] := List.getElem?_eq_getElem hi
    refine ⟨outputs[i],
      if outputs[i].id = id then { outputs[i] with code := newCode } else outputs[i],
      hget, ?_, ?_, ?_, ?_, ?_⟩
    · rw [handleCodeChange, List.getElem?_map, hget]
      rfl
    · by_cases hcase : outputs[i].id = id <;> simp [hcase]
    · by_cases hcase : outputs[i].id = id <;> simp [hcase]
    · intro hcase
      rw [if_pos hcase]
    · intro hcase
      rw [if_neg hcase]

/-- A two-result outputs list for the editing witness. -/
def outsDemo : List Output :=
  [⟨1, "codeA".toList, "respA".toList⟩, ⟨2, "codeB".toList, "respB".toList⟩]

/-- C9 witness: the frame theorem applied at a concrete outputs list,
an edit of result 1, inspected at index 0. -/
theorem c9_code_change_frame_witness :
    (handleCodeChange outsDemo 1 "new".toList).length = outsDemo.length ∧
    ∃ o o', outsDemo[0]? = some o ∧
      (handleCodeChange outsDemo 1 "new".toList)[0]? = some o' ∧
      o'.id = o.id ∧ o'.fullResponse = o.fullResponse ∧
      (o.id = 1 → o'.code = "new".toList) ∧
      (o.id ≠ 1 → o' = o) :=
  c9_code_change_frame outsDemo 1 "new".toList 0 (by decide)

/-- C10: in both `generateCodeFromImage` variants the final prompt is
the configured prompt alone when the user input is empty or all
whitespace, and otherwise the prompt, a blank line, the text
`User input: `, and the user input. -/
theorem c10_final_prompt (prompt userInput : List Char) :
    (userInput.all jsSpace = true →
      finalPromptServer prompt userInput = prompt ∧
      finalPromptClient prompt userInput = prompt) ∧
    (userInput.all jsSpace = false →
      finalPromptServer prompt userInput
        = prompt ++ "\n\nUser input: ".toList ++ userInput ∧
      finalPromptClient prompt userInput
        = prompt ++ "\n\nUser input: ".toList ++ userInput) := by
  constructor
  · intro h
    have ht : trim userInput = [] := trim_eq_nil_iff.mpr h
    constructor
    · rw [finalPromptServer, if_pos ht]
    · rw [finalPromptClient, if_pos ht]
  · intro h
    have ht : trim userInput ≠ [] := by
      intro hc
      rw [trim_eq_nil_iff.mp hc] at h
      exact Bool.noConfusion h
    constructor
    · rw [finalPromptServer, if_neg ht]
    · rw [finalPromptClient, if_neg ht]

/-- C10 witness: the prompt theorem at whitespace-only and at
non-blank user input. -/
theorem c10_final_prompt_witness :
    finalPromptServer "P".toList " \n ".toList = "P".toList ∧
    finalPromptClient "P".toList " \n ".toList = "P".toList ∧
    finalPromptServer "P".toList "make it red".toList
      = "P".toList ++ "\n\nUser input: ".toList ++ "make it red".toList ∧
    finalPromptClient "P".toList "make it red".toList
      = "P".toList ++ "\n\nUser input: ".toList ++ "make it red".toList :=
  ⟨((c10_final_prompt "P".toList " \n ".toList).1 (by decide)).1,
   ((c10_final_prompt "P".toList " \n ".toList).1 (by decide)).2,
   ((c10_final_prompt "P".toList "make it red".toList).2 (by decide)).1,
   ((c10_final_prompt "P".toList "make it red".toList).2 (by decide)).2⟩

end Image2Code
